import Mathlib

/-!
Verification of the RoomAssignment Monte-Carlo search program
(src/source/main.cpp) against its natural-language specification.

The embedding follows the C++ source closely:
* `Room` and `Incompatibility` mirror the two structs (both fields are
  C++ `int`, embedded as `Int`).
* `evaluateSolution` mirrors the fitness function.  The occupancy pass
  is range-guarded in the source, so it is total here; the
  incompatibility pass indexes the assignment vector without a bounds
  check (undefined behaviour when a student index is out of range), so
  the embedding returns `Option Int`, with `none` modelling an
  out-of-bounds access.
* `tryImprove` mirrors the critical section in `monteCarloThread`
  (lines 105-114): under the mutex, a strictly smaller fitness replaces
  both the stored fitness and the stored assignment; otherwise nothing
  changes.  `runUpdates` folds a sequence of such update attempts,
  modelling the serialized order in which the mutex admits them.
-/

namespace RoomAssignment

/-- `struct Room { int capacity; }`. -/
structure Room where
  capacity : Int
  deriving Repr, DecidableEq

/-- `struct Incompatibility { int student1; int student2; }`. -/
structure Incompatibility where
  student1 : Int
  student2 : Int
  deriving Repr, DecidableEq

/-- `INT_MAX`, the sentinel initial value of `globalBestFitness`. -/
def INT_MAX : Int := 2147483647

/-- One step of the occupancy loop: `if (room >= 0 && room < size) roomUsage[room]++;`. -/
def tallyRoom (usage : List Nat) (room : Int) : List Nat :=
  if 0 ≤ room ∧ room < (usage.length : Int) then
    usage.set room.toNat (usage.getD room.toNat 0 + 1)
  else
    usage

/-- The occupancy pass of `evaluateSolution`: starting from
`std::vector<int> roomUsage(rooms.size(), 0)`, count each in-range entry
of the assignment into its bucket; out-of-range entries are ignored. -/
def computeUsage (assignment : List Int) (numRooms : Nat) : List Nat :=
  assignment.foldl tallyRoom (List.replicate numRooms 0)

/-- The capacity pass of `evaluateSolution`: for each room index `i`,
`if (roomUsage[i] > rooms[i].capacity) penalty += (roomUsage[i] - rooms[i].capacity) * 10;`.
The source walks both vectors (of equal length) by index; here they are
consumed in lockstep.  The accumulated value is the same sum. -/
def capacityPenalty : List Room → List Nat → Int
  | [], _ => 0
  | _ :: _, [] => 0
  | room :: rs, u :: us =>
      (if room.capacity < (u : Int) then ((u : Int) - room.capacity) * 10 else 0)
      + capacityPenalty rs us

/-- `assignment[s]` for a C++ `int` index `s`: `std::vector::operator[]`
performs no bounds check, so an out-of-range (in particular negative)
index is undefined behaviour, modelled as `none`. -/
def vecAt (a : List Int) (s : Int) : Option Int :=
  if 0 ≤ s then a[s.toNat]? else none

/-- The incompatibility pass of `evaluateSolution`: for each pair,
`if (assignment[inc.student1] == assignment[inc.student2]) penalty += 5;`.
Both accesses are unguarded; an out-of-range student index makes the
whole evaluation undefined (`none`). -/
def incompatPenalty (assignment : List Int) : List Incompatibility → Option Int
  | [] => some 0
  | inc :: rest =>
      match vecAt assignment inc.student1, vecAt assignment inc.student2 with
      | some r1, some r2 =>
          match incompatPenalty assignment rest with
          | some p => some ((if r1 = r2 then 5 else 0) + p)
          | none => none
      | _, _ => none

/-- `evaluateSolution` (main.cpp lines 45-75): occupancy, capacity
penalty, incompatibility penalty, returned as their sum; `none` when the
incompatibility pass would index the assignment out of bounds. -/
def evaluateSolution (assignment : List Int) (rooms : List Room)
    (incompatibilities : List Incompatibility) : Option Int :=
  match incompatPenalty assignment incompatibilities with
  | some q => some (capacityPenalty rooms (computeUsage assignment rooms.length) + q)
  | none => none

/-- The shared best-solution register: `globalBestFitness` paired with
`globalBestAssignment` (main.cpp lines 34-38). -/
structure BestSolution where
  fitness : Int
  assignment : List Int
  deriving Repr, DecidableEq

/-- Initial register state: fitness `INT_MAX`, empty assignment. -/
def initialBest : BestSolution := ⟨INT_MAX, []⟩

/-- The critical section of `monteCarloThread` (lines 105-114): under
the mutex, `if (fitness < globalBestFitness)` replace both fields;
otherwise leave the state unchanged.  The boolean reports whether the
replacement happened. -/
def tryImprove (s : BestSolution) (f : Int) (a : List Int) : BestSolution × Bool :=
  if f < s.fitness then (⟨f, a⟩, true) else (s, false)

/-- A sequence of update attempts applied to the register, in the order
the mutex serializes them.  Each element is a candidate
(fitness, assignment) pair. -/
def runUpdates (s : BestSolution) : List (Int × List Int) → BestSolution
  | [] => s
  | c :: cs => runUpdates (tryImprove s c.1 c.2).1 cs

/-- Candidates actually produced by a worker: the fitness is the
evaluation of the assignment against the run's rooms and
incompatibilities (and in particular evaluation succeeded). -/
def goodCandidates (rooms : List Room) (incs : List Incompatibility)
    (cs : List (Int × List Int)) : Prop :=
  ∀ c ∈ cs, evaluateSolution c.2 rooms incs = some c.1

instance (rooms : List Room) (incs : List Incompatibility) (cs : List (Int × List Int)) :
    Decidable (goodCandidates rooms incs cs) :=
  List.decidableBAll _ cs

/-- Every incompatibility's student indices are valid indices into the
assignment (the data model's contract `0 ≤ studentN < numStudents`). -/
def studentsInRange (a : List Int) (incs : List Incompatibility) : Prop :=
  ∀ inc ∈ incs, (0 ≤ inc.student1 ∧ inc.student1 < (a.length : Int)) ∧
    (0 ≤ inc.student2 ∧ inc.student2 < (a.length : Int))

instance (a : List Int) (incs : List Incompatibility) :
    Decidable (studentsInRange a incs) :=
  List.decidableBAll _ incs

/-- Spec-side occupancy of room `i`: the count of assignment entries
equal to `i`.  (An entry equal to a valid room index is automatically
in range, so out-of-range entries are ignored by counting.) -/
def occupancy (a : List Int) (i : Nat) : Nat := a.count (i : Int)

/-- Spec-side overflow penalty: the sum over each room whose occupancy
exceeds its capacity of `(occupancy - capacity) * 10`. -/
def specOverflow (a : List Int) (rooms : List Room) : Int :=
  ∑ i ∈ Finset.range rooms.length,
    if (rooms.getD i ⟨0⟩).capacity < (occupancy a i : Int)
    then ((occupancy a i : Int) - (rooms.getD i ⟨0⟩).capacity) * 10
    else 0

/-- Spec-side conflict count: the number of incompatibility pairs
(duplicates counted separately) whose two students are mapped to the
same room value. -/
def specConflicts (a : List Int) (incs : List Incompatibility) : Nat :=
  incs.countP fun inc =>
    (vecAt a inc.student1).isSome && (vecAt a inc.student1 == vecAt a inc.student2)

/-! ### Occupancy characterization -/

lemma length_tallyRoom (usage : List Nat) (room : Int) :
    (tallyRoom usage room).length = usage.length := by
  unfold tallyRoom
  split <;> simp

lemma length_foldl_tallyRoom (a : List Int) (usage : List Nat) :
    (a.foldl tallyRoom usage).length = usage.length := by
  induction a generalizing usage with
  | nil => rfl
  | cons r rest ih => rw [List.foldl_cons, ih, length_tallyRoom]

lemma length_computeUsage (a : List Int) (n : Nat) :
    (computeUsage a n).length = n := by
  unfold computeUsage
  rw [length_foldl_tallyRoom, List.length_replicate]

lemma getD_tallyRoom (usage : List Nat) (room : Int) (i : Nat) (hi : i < usage.length) :
    (tallyRoom usage room).getD i 0
      = usage.getD i 0 + if room = (i : Int) then 1 else 0 := by
  unfold tallyRoom
  split
  · rename_i hr
    rw [List.getD_eq_getElem?_getD, List.getElem?_set]
    by_cases hri : room = (i : Int)
    · have htn : room.toNat = i := by omega
      simp [htn, hi, hri, List.getD_eq_getElem?_getD]
    · have htn : room.toNat ≠ i := by omega
      simp [htn, hri, List.getD_eq_getElem?_getD]
  · rename_i hr
    have hri : room ≠ (i : Int) := by
      intro h
      exact hr ⟨by omega, by omega⟩
    simp [hri]

lemma getD_foldl_tallyRoom (a : List Int) (usage : List Nat) (i : Nat)
    (hi : i < usage.length) :
    (a.foldl tallyRoom usage).getD i 0 = usage.getD i 0 + a.count (i : Int) := by
  induction a generalizing usage with
  | nil => simp
  | cons r rest ih =>
      rw [List.foldl_cons, ih _ (by rw [length_tallyRoom]; exact hi),
        getD_tallyRoom usage r i hi, List.count_cons]
      by_cases hri : r = (i : Int) <;> simp [hri] <;> omega

lemma computeUsage_getD (a : List Int) (n : Nat) (i : Nat) (hi : i < n) :
    (computeUsage a n).getD i 0 = occupancy a i := by
  unfold computeUsage occupancy
  rw [getD_foldl_tallyRoom _ _ _ (by simpa using hi)]
  simp

/-! ### Capacity penalty characterization -/

lemma capacityPenalty_eq_sum :
    ∀ (rooms : List Room) (us : List Nat), rooms.length = us.length →
      capacityPenalty rooms us
        = ∑ i ∈ Finset.range rooms.length,
            (if (rooms.getD i ⟨0⟩).capacity < (us.getD i 0 : Int)
             then ((us.getD i 0 : Int) - (rooms.getD i ⟨0⟩).capacity) * 10
             else 0)
  | [], _, _ => by simp [capacityPenalty]
  | _ :: _, [], h => by simp at h
  | room :: rs, u :: us, h => by
      have ih := capacityPenalty_eq_sum rs us (by simpa using h)
      rw [List.length_cons, Finset.sum_range_succ']
      simp only [List.getD_cons_succ, List.getD_cons_zero]
      rw [← ih]
      show (if room.capacity < (u : Int) then ((u : Int) - room.capacity) * 10 else 0)
            + capacityPenalty rs us
          = capacityPenalty rs us
            + (if room.capacity < (u : Int) then ((u : Int) - room.capacity) * 10 else 0)
      ring

lemma capacityPenalty_computeUsage (a : List Int) (rooms : List Room) :
    capacityPenalty rooms (computeUsage a rooms.length) = specOverflow a rooms := by
  rw [capacityPenalty_eq_sum _ _ (by rw [length_computeUsage])]
  unfold specOverflow
  refine Finset.sum_congr rfl fun i hi => ?_
  rw [computeUsage_getD _ _ _ (Finset.mem_range.mp hi)]

/-! ### Incompatibility penalty characterization -/

lemma vecAt_eq_some (a : List Int) (s : Int) (h1 : 0 ≤ s) (h2 : s < (a.length : Int)) :
    ∃ v, vecAt a s = some v := by
  unfold vecAt
  rw [if_pos h1, List.getElem?_eq_getElem (by omega)]
  exact ⟨_, rfl⟩

lemma incompatPenalty_eq_conflicts (a : List Int) (incs : List Incompatibility)
    (h : studentsInRange a incs) :
    incompatPenalty a incs = some ((5 : Int) * specConflicts a incs) := by
  induction incs with
  | nil => simp [incompatPenalty, specConflicts]
  | cons inc rest ih =>
      obtain ⟨⟨h1, h2⟩, h3, h4⟩ := h inc (List.mem_cons_self inc rest)
      obtain ⟨v1, hv1⟩ := vecAt_eq_some a inc.student1 h1 h2
      obtain ⟨v2, hv2⟩ := vecAt_eq_some a inc.student2 h3 h4
      have hrest := ih fun i hi => h i (List.mem_cons_of_mem _ hi)
      show (match vecAt a inc.student1, vecAt a inc.student2 with
            | some r1, some r2 =>
                match incompatPenalty a rest with
                | some p => some ((if r1 = r2 then 5 else 0) + p)
                | none => none
            | _, _ => none)
          = some ((5 : Int) * specConflicts a (inc :: rest))
      rw [hv1, hv2, hrest]
      unfold specConflicts
      rw [List.countP_cons, hv1, hv2]
      by_cases hv : v1 = v2
      all_goals simp [hv]
      all_goals (push_cast; ring)

lemma evaluateSolution_eq_spec (a : List Int) (rooms : List Room)
    (incs : List Incompatibility) (h : studentsInRange a incs) :
    evaluateSolution a rooms incs
      = some (specOverflow a rooms + (5 : Int) * specConflicts a incs) := by
  unfold evaluateSolution
  rw [incompatPenalty_eq_conflicts a incs h, capacityPenalty_computeUsage]

/-! ### Nonnegativity and the zero case -/

lemma specOverflow_term_nonneg (a : List Int) (rooms : List Room) (i : Nat) :
    (0 : Int) ≤ (if (rooms.getD i ⟨0⟩).capacity < (occupancy a i : Int)
                 then ((occupancy a i : Int) - (rooms.getD i ⟨0⟩).capacity) * 10
                 else 0) := by
  split
  · rename_i hlt
    have : (0 : Int) ≤ (occupancy a i : Int) - (rooms.getD i ⟨0⟩).capacity := by omega
    positivity
  · exact le_refl 0

lemma specOverflow_nonneg (a : List Int) (rooms : List Room) :
    0 ≤ specOverflow a rooms :=
  Finset.sum_nonneg fun i _ => specOverflow_term_nonneg a rooms i

lemma specOverflow_eq_zero_iff (a : List Int) (rooms : List Room) :
    specOverflow a rooms = 0
      ↔ ∀ i, (h : i < rooms.length) →
          (occupancy a i : Int) ≤ (rooms.get ⟨i, h⟩).capacity := by
  unfold specOverflow
  rw [Finset.sum_eq_zero_iff_of_nonneg fun i _ => specOverflow_term_nonneg a rooms i]
  constructor
  · intro hz i hi
    have hterm := hz i (Finset.mem_range.mpr hi)
    have hgd : rooms.getD i ⟨0⟩ = rooms.get ⟨i, hi⟩ := by
      rw [List.getD_eq_getElem?_getD, List.getElem?_eq_getElem hi, Option.getD_some,
        List.get_eq_getElem]
    rw [hgd] at hterm
    by_contra hgt
    push_neg at hgt
    rw [if_pos hgt] at hterm
    omega
  · intro hb i hi
    have hi' := Finset.mem_range.mp hi
    have hgd : rooms.getD i ⟨0⟩ = rooms.get ⟨i, hi'⟩ := by
      rw [List.getD_eq_getElem?_getD, List.getElem?_eq_getElem hi', Option.getD_some,
        List.get_eq_getElem]
    rw [hgd, if_neg (by have := hb i hi'; omega)]

lemma specConflicts_eq_zero_iff (a : List Int) (incs : List Incompatibility)
    (h : studentsInRange a incs) :
    specConflicts a incs = 0
      ↔ ∀ inc ∈ incs, vecAt a inc.student1 ≠ vecAt a inc.student2 := by
  unfold specConflicts
  rw [List.countP_eq_zero]
  constructor
  · intro hz inc hmem heq
    obtain ⟨⟨h1, h2⟩, _, _⟩ := h inc hmem
    obtain ⟨v1, hv1⟩ := vecAt_eq_some a inc.student1 h1 h2
    have hcontra := hz inc hmem
    rw [hv1] at heq
    rw [hv1, ← heq] at hcontra
    simp at hcontra
  · intro hne inc hmem
    simp only [Bool.and_eq_true, Option.isSome_iff_exists, beq_iff_eq]
    rintro ⟨_, heq⟩
    exact hne inc hmem heq

/-! ### Upper bounds on the penalty -/

lemma sum_ite_cast_eq_le (r : Int) (n : Nat) :
    (∑ i ∈ Finset.range n, if (i : Int) = r then (1 : Nat) else 0) ≤ 1 := by
  rw [Finset.sum_boole]
  have hcard : ((Finset.range n).filter fun i : Nat => (i : Int) = r).card ≤ 1 := by
    apply Finset.card_le_one.mpr
    intro x hx y hy
    have hx' := (Finset.mem_filter.mp hx).2
    have hy' := (Finset.mem_filter.mp hy).2
    omega
  exact_mod_cast hcard

lemma sum_occupancy_le (a : List Int) (n : Nat) :
    (∑ i ∈ Finset.range n, occupancy a i) ≤ a.length := by
  induction a with
  | nil => simp [occupancy]
  | cons r rest ih =>
      have hsplit : ∀ i ∈ Finset.range n,
          occupancy (r :: rest) i
            = occupancy rest i + if (i : Int) = r then 1 else 0 := by
        intro i _
        unfold occupancy
        rw [List.count_cons]
        by_cases hri : r = (i : Int)
        · simp [hri]
        · have : ¬((i : Int) = r) := fun h => hri h.symm
          simp [hri, this]
      rw [Finset.sum_congr rfl hsplit, Finset.sum_add_distrib]
      have := sum_ite_cast_eq_le r n
      simp only [List.length_cons]
      omega

lemma specOverflow_le (a : List Int) (rooms : List Room)
    (hcap : ∀ r ∈ rooms, 0 ≤ r.capacity) :
    specOverflow a rooms ≤ 10 * (a.length : Int) := by
  have hterm : ∀ i ∈ Finset.range rooms.length,
      (if (rooms.getD i ⟨0⟩).capacity < (occupancy a i : Int)
       then ((occupancy a i : Int) - (rooms.getD i ⟨0⟩).capacity) * 10
       else 0) ≤ 10 * (occupancy a i : Int) := by
    intro i hi
    have hi' := Finset.mem_range.mp hi
    have hmem : rooms.getD i ⟨0⟩ ∈ rooms := by
      rw [List.getD_eq_getElem?_getD, List.getElem?_eq_getElem hi', Option.getD_some]
      exact List.getElem_mem hi'
    have hc := hcap _ hmem
    split
    · rename_i hlt
      nlinarith
    · positivity
  calc specOverflow a rooms
      ≤ ∑ i ∈ Finset.range rooms.length, 10 * (occupancy a i : Int) :=
        Finset.sum_le_sum hterm
    _ = 10 * ((∑ i ∈ Finset.range rooms.length, occupancy a i : Nat) : Int) := by
        rw [← Finset.mul_sum]
        push_cast
        rfl
    _ ≤ 10 * (a.length : Int) := by
        have := sum_occupancy_le a rooms.length
        omega

lemma specConflicts_le (a : List Int) (incs : List Incompatibility) :
    specConflicts a incs ≤ incs.length :=
  List.countP_le_length _

/-! ### Register lemmas -/

lemma tryImprove_fst_fitness (s : BestSolution) (f : Int) (a : List Int) :
    (tryImprove s f a).1.fitness = min s.fitness f := by
  unfold tryImprove
  split <;> rename_i hlt <;> simp <;> omega

lemma runUpdates_append (s : BestSolution) (cs₁ cs₂ : List (Int × List Int)) :
    runUpdates s (cs₁ ++ cs₂) = runUpdates (runUpdates s cs₁) cs₂ := by
  induction cs₁ generalizing s with
  | nil => rfl
  | cons c cs ih => rw [List.cons_append, runUpdates, runUpdates, ih]

lemma runUpdates_fitness_le (s : BestSolution) (cs : List (Int × List Int)) :
    (runUpdates s cs).fitness ≤ s.fitness := by
  induction cs generalizing s with
  | nil => exact le_refl _
  | cons c cs ih =>
      rw [runUpdates]
      calc (runUpdates (tryImprove s c.1 c.2).1 cs).fitness
          ≤ (tryImprove s c.1 c.2).1.fitness := ih _
        _ ≤ s.fitness := by rw [tryImprove_fst_fitness]; exact min_le_left _ _

lemma runUpdates_fitness_le_of_mem (s : BestSolution) (cs : List (Int × List Int))
    (c : Int × List Int) (hmem : c ∈ cs) :
    (runUpdates s cs).fitness ≤ c.1 := by
  obtain ⟨l1, l2, rfl⟩ := List.append_of_mem hmem
  rw [runUpdates_append, runUpdates]
  calc (runUpdates (tryImprove (runUpdates s l1) c.1 c.2).1 l2).fitness
      ≤ (tryImprove (runUpdates s l1) c.1 c.2).1.fitness := runUpdates_fitness_le _ _
    _ ≤ c.1 := by rw [tryImprove_fst_fitness]; exact min_le_right _ _

lemma le_runUpdates_fitness (s : BestSolution) (cs : List (Int × List Int)) (b : Int)
    (hs : b ≤ s.fitness) (hcs : ∀ c ∈ cs, b ≤ c.1) :
    b ≤ (runUpdates s cs).fitness := by
  induction cs generalizing s with
  | nil => exact hs
  | cons c cs ih =>
      rw [runUpdates]
      refine ih _ ?_ fun x hx => hcs x (List.mem_cons_of_mem _ hx)
      rw [tryImprove_fst_fitness]
      exact le_min hs (hcs c (List.mem_cons_self c cs))

lemma runUpdates_preserves_inv (rooms : List Room) (incs : List Incompatibility)
    (s : BestSolution) (cs : List (Int × List Int))
    (hs : s.assignment ≠ [] → evaluateSolution s.assignment rooms incs = some s.fitness)
    (hcs : goodCandidates rooms incs cs) :
    (runUpdates s cs).assignment ≠ [] →
      evaluateSolution (runUpdates s cs).assignment rooms incs
        = some (runUpdates s cs).fitness := by
  induction cs generalizing s with
  | nil => exact hs
  | cons c cs ih =>
      rw [runUpdates]
      refine ih _ ?_ fun x hx => hcs x (List.mem_cons_of_mem _ hx)
      unfold tryImprove
      split
      · intro _
        exact hcs c (List.mem_cons_self c cs)
      · exact hs

/-! ### Relabeling rooms by a permutation -/

/-- Relabel a room value by a permutation `e` of the valid room indices;
out-of-range values are left unchanged (the evaluator ignores them). -/
def relabelRoom (n : Nat) (e : Equiv.Perm (Fin n)) (r : Int) : Int :=
  if h : 0 ≤ r ∧ r.toNat < n then (((e ⟨r.toNat, h.2⟩ : Fin n) : Nat) : Int) else r

/-- The room list with capacities relabeled by the same permutation: the
room at index `e i` of the new list is the room at index `i` of the old
list. -/
def permuteRooms (rooms : List Room) (e : Equiv.Perm (Fin rooms.length)) : List Room :=
  List.ofFn fun j => rooms.get (e.symm j)

lemma relabelRoom_injective (n : Nat) (e : Equiv.Perm (Fin n)) :
    Function.Injective (relabelRoom n e) := by
  intro r1 r2 heq
  unfold relabelRoom at heq
  split at heq <;> split at heq
  · rename_i h1 h2
    have hfin : (e ⟨r1.toNat, h1.2⟩) = (e ⟨r2.toNat, h2.2⟩) := by
      apply Fin.ext
      exact_mod_cast heq
    have hval := congrArg Fin.val (e.injective hfin)
    simp only at hval
    omega
  · rename_i h1 h2
    exfalso
    apply h2
    refine ⟨by rw [← heq]; positivity, ?_⟩
    rw [← heq]
    simpa using (e ⟨r1.toNat, h1.2⟩).isLt
  · rename_i h1 h2
    exfalso
    apply h1
    refine ⟨by rw [heq]; positivity, ?_⟩
    rw [heq]
    simpa using (e ⟨r2.toNat, h2.2⟩).isLt
  · exact heq

lemma vecAt_map (g : Int → Int) (a : List Int) (s : Int) :
    vecAt (a.map g) s = (vecAt a s).map g := by
  unfold vecAt
  split
  · rw [List.getElem?_map]
  · rfl

lemma incompatPenalty_map (g : Int → Int) (hg : Function.Injective g)
    (a : List Int) (incs : List Incompatibility) :
    incompatPenalty (a.map g) incs = incompatPenalty a incs := by
  induction incs with
  | nil => rfl
  | cons inc rest ih =>
      simp only [incompatPenalty, vecAt_map, ih]
      cases h1 : vecAt a inc.student1 with
      | none => rfl
      | some r1 =>
          cases h2 : vecAt a inc.student2 with
          | none => rfl
          | some r2 =>
              cases hrest : incompatPenalty a rest with
              | none => rfl
              | some p =>
                  simp only [Option.map_some']
                  by_cases hr : r1 = r2
                  · simp [hr]
                  · have hgr : g r1 ≠ g r2 := fun hq => hr (hg hq)
                    simp [hr, hgr]

lemma occupancy_map_relabel (a : List Int) (n : Nat) (e : Equiv.Perm (Fin n))
    (j : Fin n) :
    occupancy (a.map (relabelRoom n e)) j = occupancy a (e.symm j) := by
  unfold occupancy
  have hkey : ((j : Nat) : Int) = relabelRoom n e (((e.symm j : Nat) : Int)) := by
    simp [relabelRoom]
  rw [hkey, List.count_map_of_injective _ _ (relabelRoom_injective n e)]

lemma length_permuteRooms (rooms : List Room) (e : Equiv.Perm (Fin rooms.length)) :
    (permuteRooms rooms e).length = rooms.length := by
  unfold permuteRooms
  exact List.length_ofFn _

lemma permuteRooms_getD (rooms : List Room) (e : Equiv.Perm (Fin rooms.length))
    (j : Fin rooms.length) :
    (permuteRooms rooms e).getD j ⟨0⟩ = rooms.getD (e.symm j : Nat) ⟨0⟩ := by
  unfold permuteRooms
  rw [List.getD_eq_getElem?_getD,
    List.getElem?_eq_getElem (by simpa [List.length_ofFn] using j.isLt),
    List.getElem_ofFn, Option.getD_some,
    List.getD_eq_getElem?_getD, List.getElem?_eq_getElem (Fin.isLt _), Option.getD_some]
  simp [List.get_eq_getElem]

lemma specOverflow_permute (a : List Int) (rooms : List Room)
    (e : Equiv.Perm (Fin rooms.length)) :
    specOverflow (a.map (relabelRoom rooms.length e)) (permuteRooms rooms e)
      = specOverflow a rooms := by
  unfold specOverflow
  rw [length_permuteRooms]
  rw [← Fin.sum_univ_eq_sum_range
      (fun i => if ((permuteRooms rooms e).getD i ⟨0⟩).capacity
                    < (occupancy (a.map (relabelRoom rooms.length e)) i : Int)
                then ((occupancy (a.map (relabelRoom rooms.length e)) i : Int)
                      - ((permuteRooms rooms e).getD i ⟨0⟩).capacity) * 10
                else 0),
    ← Fin.sum_univ_eq_sum_range
      (fun i => if (rooms.getD i ⟨0⟩).capacity < (occupancy a i : Int)
                then ((occupancy a i : Int) - (rooms.getD i ⟨0⟩).capacity) * 10
                else 0)]
  rw [← Equiv.sum_comp e.symm
      (fun i : Fin rooms.length =>
        if (rooms.getD (i : Nat) ⟨0⟩).capacity < (occupancy a i : Int)
        then ((occupancy a i : Int) - (rooms.getD (i : Nat) ⟨0⟩).capacity) * 10
        else 0)]
  refine Finset.sum_congr rfl fun j _ => ?_
  rw [occupancy_map_relabel, permuteRooms_getD]

lemma evaluateSolution_permute (a : List Int) (rooms : List Room)
    (incs : List Incompatibility) (e : Equiv.Perm (Fin rooms.length)) :
    evaluateSolution (a.map (relabelRoom rooms.length e)) (permuteRooms rooms e) incs
      = evaluateSolution a rooms incs := by
  unfold evaluateSolution
  rw [incompatPenalty_map _ (relabelRoom_injective _ _)]
  cases hq : incompatPenalty a incs with
  | none => rfl
  | some q =>
      rw [capacityPenalty_computeUsage, capacityPenalty_computeUsage, specOverflow_permute]

/-! ### The entry point's configuration handling (main, lines 128-174) -/

/-- main's thread-count setup: `int threadCount = 4; if (argc > 1)
threadCount = atoi(argv[1]);`.  The argument is modelled already parsed
(`atoi` yields 0 on non-numeric input). -/
def threadCountOf (arg : Option Int) : Int :=
  match arg with
  | some v => v
  | none => 4

/-- The spawn loop `for (int t = 0; t < threadCount; t++)`: the number
of worker threads main creates.  For a zero or negative thread count the
loop body never runs. -/
def workersSpawned (threadCount : Int) : Nat := threadCount.toNat

/-- `int numStudents = 100;` in main. -/
def numStudentsMain : Nat := 100

/-- The reporting loop of main (`for (int i = 0; i < numStudents; i++)
... globalBestAssignment[i] ...`): the per-student element read from the
best assignment, `none` where the unchecked access is out of bounds.
main runs this unconditionally — there is no configuration validation
and no early error exit. -/
def reportReads (best : List Int) : List (Option Int) :=
  (List.range numStudentsMain).map fun i => best[i]?

/-- main's return value on the path reaching the end: `return 0;`. -/
def mainExitCode : Int := 0

/-- `std::vector<Room> rooms(numRooms, Room{10});` with `numRooms = 10`
in main: ten rooms of capacity 10. -/
def roomsMain : List Room := List.replicate 10 ⟨10⟩

/-- `for (int i = 0; i < numStudents - 1; i += 3)
incompatibilities.push_back({i, i+1});` in main: `i` ranges over
0, 3, ..., 96, giving 33 pairs `(3k, 3k+1)` for `k < 33`. -/
def incompatibilitiesMain : List Incompatibility :=
  (List.range 33).map fun k : Nat => ⟨3 * (k : Int), 3 * (k : Int) + 1⟩

/-! ### Claim theorems -/

/-- C1: for every assignment, room list, and incompatibility list whose
student indices index into the assignment (the data model's contract),
`evaluateSolution` returns exactly the spec's sum: the overflow penalty
`(occupancy - capacity) * 10` over each room whose occupancy (the count
of assignment entries equal to that room's index, out-of-range entries
silently ignored) exceeds its capacity, plus a flat 5 for each
incompatibility pair (duplicates counted separately) whose two students
are mapped to the same room value. -/
theorem evaluateSolution_matches_spec (a : List Int) (rooms : List Room)
    (incs : List Incompatibility) (hstud : studentsInRange a incs) :
    evaluateSolution a rooms incs
      = some (specOverflow a rooms + (5 : Int) * specConflicts a incs) :=
  evaluateSolution_eq_spec a rooms incs hstud

/-- Witness for C1 at a concrete input with an overflowing room, a
duplicated conflicting pair, and an out-of-range assignment entry. -/
theorem evaluateSolution_matches_spec_witness :
    studentsInRange [0, 0, 2, 5, -1] [⟨0, 1⟩, ⟨0, 1⟩, ⟨2, 3⟩] ∧
    evaluateSolution [0, 0, 2, 5, -1] [⟨1⟩, ⟨0⟩, ⟨2⟩] [⟨0, 1⟩, ⟨0, 1⟩, ⟨2, 3⟩]
      = some (specOverflow [0, 0, 2, 5, -1] [⟨1⟩, ⟨0⟩, ⟨2⟩]
          + (5 : Int) * specConflicts [0, 0, 2, 5, -1] [⟨0, 1⟩, ⟨0, 1⟩, ⟨2, 3⟩]) :=
  ⟨by decide, evaluateSolution_matches_spec _ _ _ (by decide)⟩

/-- C2: the register update replaces both stored fitness and stored
assignment (as a unit, reporting success) iff the candidate fitness is
strictly below the stored fitness; on ties or worse the stored state is
left completely unchanged. -/
theorem tryImprove_strict_improvement (s : BestSolution) (f : Int) (a : List Int) :
    (tryImprove s f a = (⟨f, a⟩, true) ↔ f < s.fitness) ∧
    (s.fitness ≤ f → tryImprove s f a = (s, false)) := by
  unfold tryImprove
  by_cases hlt : f < s.fitness
  · exact ⟨⟨fun _ => hlt, fun _ => by rw [if_pos hlt]⟩, fun hle => absurd hlt (by omega)⟩
  · refine ⟨⟨fun h => ?_, fun h => absurd h hlt⟩, fun _ => by rw [if_neg hlt]⟩
    rw [if_neg hlt] at h
    exact absurd (congrArg Prod.snd h) (by simp)

/-- Witness for C2: a tie does not replace the stored state. -/
theorem tryImprove_strict_improvement_witness :
    ((⟨7, [1]⟩ : BestSolution).fitness ≤ 7) ∧
    tryImprove ⟨7, [1]⟩ 7 [2] = (⟨7, [1]⟩, false) :=
  ⟨by decide, (tryImprove_strict_improvement ⟨7, [1]⟩ 7 [2]).2 (by decide)⟩

/-- C3: the stored fitness is monotonically non-increasing: one update
leaves it at the minimum of its previous value and the candidate
fitness, and after any further updates it never rises above the value
reached after any earlier prefix of the sequence. -/
theorem register_fitness_monotone :
    (∀ (s : BestSolution) (f : Int) (a : List Int),
        (tryImprove s f a).1.fitness = min s.fitness f) ∧
    (∀ (s : BestSolution) (cs₁ cs₂ : List (Int × List Int)),
        (runUpdates s (cs₁ ++ cs₂)).fitness ≤ (runUpdates s cs₁).fitness) :=
  ⟨tryImprove_fst_fitness, fun s cs₁ cs₂ => by
    rw [runUpdates_append]
    exact runUpdates_fitness_le _ _⟩

/-- C4: for every assignment whose entries are valid room indices (with
valid student indices in the pairs), evaluation succeeds with a value
≥ 0, which is 0 iff no room's occupancy exceeds its capacity and no
incompatibility pair has both students in the same room. -/
theorem evaluateSolution_nonneg_zero_iff (a : List Int) (rooms : List Room)
    (incs : List Incompatibility)
    (hentries : ∀ r ∈ a, 0 ≤ r ∧ r < (rooms.length : Int))
    (hstud : studentsInRange a incs) :
    ∃ p, evaluateSolution a rooms incs = some p ∧ 0 ≤ p ∧
      (p = 0 ↔
        (∀ i, (h : i < rooms.length) →
            (occupancy a i : Int) ≤ (rooms.get ⟨i, h⟩).capacity) ∧
        (∀ inc ∈ incs, vecAt a inc.student1 ≠ vecAt a inc.student2)) := by
  have h1 := specOverflow_nonneg a rooms
  have h2 : (0 : Int) ≤ (5 : Int) * (specConflicts a incs : Int) := by positivity
  refine ⟨_, evaluateSolution_eq_spec a rooms incs hstud, by omega, ?_, ?_⟩
  · intro h0
    have hov : specOverflow a rooms = 0 := by omega
    have hcf : ((specConflicts a incs : Int) : Int) = 0 := by omega
    exact ⟨(specOverflow_eq_zero_iff a rooms).mp hov,
      (specConflicts_eq_zero_iff a incs hstud).mp (by exact_mod_cast hcf)⟩
  · rintro ⟨hov, hcf⟩
    rw [(specOverflow_eq_zero_iff a rooms).mpr hov]
    rw [(specConflicts_eq_zero_iff a incs hstud).mpr hcf]
    simp

/-- Witness for C4: a conflict-free, within-capacity assignment scores
exactly zero. -/
theorem evaluateSolution_nonneg_zero_iff_witness :
    (∀ r ∈ ([0, 1] : List Int), 0 ≤ r ∧ r < (([⟨1⟩, ⟨1⟩] : List Room).length : Int)) ∧
    studentsInRange [0, 1] [⟨0, 1⟩] ∧
    ∃ p, evaluateSolution [0, 1] [⟨1⟩, ⟨1⟩] [⟨0, 1⟩] = some p ∧ 0 ≤ p ∧
      (p = 0 ↔
        (∀ i, (h : i < ([⟨1⟩, ⟨1⟩] : List Room).length) →
            (occupancy [0, 1] i : Int) ≤ (([⟨1⟩, ⟨1⟩] : List Room).get ⟨i, h⟩).capacity) ∧
        (∀ inc ∈ ([⟨0, 1⟩] : List Incompatibility),
            vecAt [0, 1] inc.student1 ≠ vecAt [0, 1] inc.student2)) :=
  ⟨by decide, by decide,
    evaluateSolution_nonneg_zero_iff [0, 1] [⟨1⟩, ⟨1⟩] [⟨0, 1⟩] (by decide) (by decide)⟩

/-- C5 evidence: main performs no configuration validation.  With the
command-line argument parsing to 0, the thread count is 0, the spawn
loop creates no worker, yet main still runs the reporting loop, where
every per-student read of the (still empty) best assignment is out of
bounds, and the normal path returns exit code 0 — there is no fail-fast
error path. -/
theorem main_no_failfast_on_zero_threads :
    threadCountOf (some 0) = 0 ∧
    workersSpawned (threadCountOf (some 0)) = 0 ∧
    reportReads initialBest.assignment = List.replicate numStudentsMain none ∧
    mainExitCode = 0 :=
  ⟨rfl, rfl, by decide, rfl⟩

/-- C6: after any sequence of update attempts with worker-produced
candidates (each candidate fitness is the evaluation of its assignment),
starting from the initial sentinel state, a non-empty stored assignment
always evaluates to exactly the stored fitness: the two fields are never
updated independently. -/
theorem register_invariant_eval_matches (rooms : List Room)
    (incs : List Incompatibility) (cs : List (Int × List Int))
    (hcs : goodCandidates rooms incs cs) :
    (runUpdates initialBest cs).assignment ≠ [] →
      evaluateSolution (runUpdates initialBest cs).assignment rooms incs
        = some (runUpdates initialBest cs).fitness :=
  runUpdates_preserves_inv rooms incs initialBest cs (fun h => absurd rfl h) hcs

/-- Witness for C6 after one accepted candidate. -/
theorem register_invariant_eval_matches_witness :
    goodCandidates [⟨0⟩] [] [(10, [0])] ∧
    (runUpdates initialBest [(10, [0])]).assignment ≠ [] ∧
    evaluateSolution (runUpdates initialBest [(10, [0])]).assignment [⟨0⟩] []
      = some (runUpdates initialBest [(10, [0])]).fitness :=
  ⟨by decide, by decide,
    register_invariant_eval_matches [⟨0⟩] [] [(10, [0])] (by decide) (by decide)⟩

/-- C7: evaluation is invariant under relabeling the assignment by a
permutation of the room indices provided the capacities are relabeled by
the same permutation; relabeling the assignment alone is not invariant
in general. -/
theorem evaluateSolution_perm_invariance :
    (∀ (a : List Int) (rooms : List Room) (incs : List Incompatibility)
        (e : Equiv.Perm (Fin rooms.length)),
        evaluateSolution (a.map (relabelRoom rooms.length e)) (permuteRooms rooms e) incs
          = evaluateSolution a rooms incs) ∧
    (∃ (a : List Int) (rooms : List Room) (incs : List Incompatibility)
        (e : Equiv.Perm (Fin rooms.length)),
        evaluateSolution (a.map (relabelRoom rooms.length e)) rooms incs
          ≠ evaluateSolution a rooms incs) :=
  ⟨evaluateSolution_permute,
    ⟨[0], [⟨0⟩, ⟨1⟩], [],
      Equiv.swap (⟨0, by decide⟩ : Fin ([⟨0⟩, ⟨1⟩] : List Room).length) ⟨1, by decide⟩,
      by decide⟩⟩

/-- C8: with one room of capacity 5, three students, and the single
incompatibility pair (0, 1), every generator-producible candidate
evaluates to exactly 5, and any nonempty sequence of such candidates
leaves the register's final fitness at exactly 5. -/
theorem single_room_scenario_fitness :
    (∀ c : List Int, c.length = 3 → (∀ r ∈ c, 0 ≤ r ∧ r < 1) →
        evaluateSolution c [⟨5⟩] [⟨0, 1⟩] = some 5) ∧
    (∀ cs : List (Int × List Int), cs ≠ [] →
        (∀ p ∈ cs, p.2.length = 3 ∧ (∀ r ∈ p.2, 0 ≤ r ∧ r < 1) ∧
            evaluateSolution p.2 [⟨5⟩] [⟨0, 1⟩] = some p.1) →
        (runUpdates initialBest cs).fitness = 5) := by
  have hform : ∀ c : List Int, c.length = 3 → (∀ r ∈ c, 0 ≤ r ∧ r < 1) → c = [0, 0, 0] := by
    intro c hlen hr
    obtain ⟨x, y, z, rfl⟩ := List.length_eq_three.mp hlen
    have hx := hr x (by simp)
    have hy := hr y (by simp)
    have hz := hr z (by simp)
    have hx0 : x = 0 := by omega
    have hy0 : y = 0 := by omega
    have hz0 : z = 0 := by omega
    rw [hx0, hy0, hz0]
  have heval : ∀ c : List Int, c.length = 3 → (∀ r ∈ c, 0 ≤ r ∧ r < 1) →
      evaluateSolution c [⟨5⟩] [⟨0, 1⟩] = some 5 := by
    intro c hlen hr
    rw [hform c hlen hr]
    decide
  refine ⟨heval, fun cs hne hcs => ?_⟩
  have hfit : ∀ p ∈ cs, p.1 = (5 : Int) := by
    intro p hp
    obtain ⟨hlen, hr, hev⟩ := hcs p hp
    have := heval p.2 hlen hr
    rw [hev] at this
    exact Option.some_injective _ this
  obtain ⟨c, hc⟩ : ∃ c, c ∈ cs := by
    cases cs with
    | nil => exact absurd rfl hne
    | cons c cs => exact ⟨c, List.mem_cons_self c cs⟩
  refine le_antisymm ?_ ?_
  · have := runUpdates_fitness_le_of_mem initialBest cs c hc
    rw [hfit c hc] at this
    exact this
  · refine le_runUpdates_fitness initialBest cs 5 (by decide) fun x hx => ?_
    rw [hfit x hx]

/-- Witness for C8 with a single candidate. -/
theorem single_room_scenario_fitness_witness :
    ([((5 : Int), ([0, 0, 0] : List Int))] ≠ ([] : List (Int × List Int))) ∧
    (runUpdates initialBest [((5 : Int), [0, 0, 0])]).fitness = 5 :=
  ⟨by decide, single_room_scenario_fitness.2 _ (by decide) (by decide)⟩

/-- C9: when every incompatibility's student indices lie within the
assignment, evaluation never reaches the out-of-bounds (`none`) branch
of the embedding: the unguarded assignment accesses of the
incompatibility loop are all in bounds (the occupancy pass is
range-guarded by construction). -/
theorem evaluateSolution_accesses_in_bounds (a : List Int) (rooms : List Room)
    (incs : List Incompatibility) (hstud : studentsInRange a incs) :
    ∃ p, evaluateSolution a rooms incs = some p :=
  ⟨_, evaluateSolution_eq_spec a rooms incs hstud⟩

/-- Witness for C9: a concrete in-range instance evaluates to `some`. -/
theorem evaluateSolution_accesses_in_bounds_witness :
    studentsInRange [0, 1, 0] [⟨0, 2⟩, ⟨1, 2⟩] ∧
    ∃ p, evaluateSolution [0, 1, 0] [⟨1⟩, ⟨1⟩] [⟨0, 2⟩, ⟨1, 2⟩] = some p :=
  ⟨by decide,
    evaluateSolution_accesses_in_bounds [0, 1, 0] [⟨1⟩, ⟨1⟩] [⟨0, 2⟩, ⟨1, 2⟩] (by decide)⟩

lemma studentsInRange_main (c : List Int) (hlen : c.length = numStudentsMain) :
    studentsInRange c incompatibilitiesMain := by
  intro inc hmem
  unfold incompatibilitiesMain at hmem
  obtain ⟨k, hk, rfl⟩ := List.mem_map.mp hmem
  have hk33 := List.mem_range.mp hk
  unfold numStudentsMain at hlen
  simp only
  omega

/-- C10 is false as stated: a room with negative capacity makes the
penalty (here 10) exceed `10 * numStudents + 5 * numPairs` (here 0). -/
theorem evaluate_bound_counterexample :
    evaluateSolution [] [⟨-1⟩] [] = some 10 ∧
    ¬ ((10 : Int) ≤ 10 * (([] : List Int).length : Int)
          + 5 * (([] : List Incompatibility).length : Int)) :=
  ⟨by decide, by decide⟩

/-- C10 (amended): with non-negative room capacities (the data model's
contract) and in-range student indices, evaluation succeeds with a value
at most `10 * numStudents + 5 * numPairs`.  In the program's own
configuration (100 students, 10 rooms of capacity 10, 33 pairs) every
worker-producible candidate evaluates to at most `10*100 + 5*33 = 1165`,
strictly below the sentinel `INT_MAX` — the whole computation stays far
inside `int` range, so no signed overflow arises on this path — and
therefore any nonempty sequence of worker-produced update attempts
leaves the register holding a real candidate fitness strictly below the
sentinel. -/
theorem evaluateSolution_bounded (a : List Int) (rooms : List Room)
    (incs : List Incompatibility)
    (hcap : ∀ r ∈ rooms, 0 ≤ r.capacity)
    (hstud : studentsInRange a incs) :
    (∃ p, evaluateSolution a rooms incs = some p ∧
        p ≤ 10 * (a.length : Int) + 5 * (incs.length : Int)) ∧
    (∀ c : List Int, c.length = numStudentsMain → (∀ r ∈ c, 0 ≤ r ∧ r < 10) →
        ∃ p, evaluateSolution c roomsMain incompatibilitiesMain = some p ∧
          p ≤ 1165 ∧ p < INT_MAX) ∧
    (∀ cs : List (Int × List Int), cs ≠ [] →
        goodCandidates roomsMain incompatibilitiesMain cs →
        (∀ c ∈ cs, c.2.length = numStudentsMain) →
        (runUpdates initialBest cs).fitness < INT_MAX) := by
  have hmain : ∀ c : List Int, c.length = numStudentsMain →
      ∃ p, evaluateSolution c roomsMain incompatibilitiesMain = some p ∧
        p ≤ 1165 ∧ p < INT_MAX := by
    intro c hlen
    refine ⟨_, evaluateSolution_eq_spec c roomsMain incompatibilitiesMain
      (studentsInRange_main c hlen), ?_, ?_⟩
    all_goals
      have h1 := specOverflow_le c roomsMain (by decide)
      have h2 : ((specConflicts c incompatibilitiesMain : Nat) : Int)
          ≤ (incompatibilitiesMain.length : Int) := by
        exact_mod_cast specConflicts_le c incompatibilitiesMain
      have h3 : incompatibilitiesMain.length = 33 := by decide
      have h4 : INT_MAX = 2147483647 := rfl
      unfold numStudentsMain at hlen
      omega
  refine ⟨?_, fun c hlen _ => hmain c hlen, fun cs hne hgood hlens => ?_⟩
  · refine ⟨_, evaluateSolution_eq_spec a rooms incs hstud, ?_⟩
    have h1 := specOverflow_le a rooms hcap
    have h2 : ((specConflicts a incs : Nat) : Int) ≤ (incs.length : Int) := by
      exact_mod_cast specConflicts_le a incs
    omega
  · obtain ⟨c, hc⟩ : ∃ c, c ∈ cs := by
      cases cs with
      | nil => exact absurd rfl hne
      | cons c cs => exact ⟨c, List.mem_cons_self c cs⟩
    obtain ⟨p, hp, hple, hpmax⟩ := hmain c.2 (hlens c hc)
    have hev := hgood c hc
    rw [hev] at hp
    have hc1 := Option.some_injective _ hp
    calc (runUpdates initialBest cs).fitness
        ≤ c.1 := runUpdates_fitness_le_of_mem _ _ _ hc
      _ < INT_MAX := by omega

/-- Witness for the amended C10 on the concrete scenario rooms, students
and pair of the spec's single-room scenario. -/
theorem evaluateSolution_bounded_witness :
    (∀ r ∈ ([⟨5⟩] : List Room), 0 ≤ r.capacity) ∧
    studentsInRange [0, 0, 0] [⟨0, 1⟩] ∧
    (∃ p, evaluateSolution [0, 0, 0] [⟨5⟩] [⟨0, 1⟩] = some p ∧
      p ≤ 10 * (([0, 0, 0] : List Int).length : Int)
            + 5 * (([⟨0, 1⟩] : List Incompatibility).length : Int)) :=
  ⟨by decide, by decide,
    (evaluateSolution_bounded [0, 0, 0] [⟨5⟩] [⟨0, 1⟩] (by decide) (by decide)).1⟩

end RoomAssignment
